import Mathlib

/-!
# Verification of the Yahoo gainers acquisition-and-ranking pipeline

This file gives a shallow embedding of the algorithmic core of
`code/web_scraping_yahoo.py` and proves properties of it:

* list acquisition with pagination, deduplication and a consolidated
  fallback page (`main`, lines 101-134);
* the retrying loader (`load_with_retry`, lines 80-95);
* batched historical fetch with per-batch normalization and outer-join
  merging (`fetch_adj`, lines 153-198);
* the return/risk calculator and the portfolio selector/evaluator
  (`main`, lines 226-295).

Floating-point values are idealized as real numbers; a pandas `NaN`
cell is modelled as `none : Option ℝ`.  Timestamps are encoded as
naturals `t = 32 * month + day` with `day ∈ 1..31`, so that the
calendar month of a stamp is `t / 32` and the order of stamps is the
order of the encoding.
-/

namespace YahooPipeline

/-! ## List acquisition (main, lines 101-134)

An extracted row is a `(symbol, name)` pair of strings. -/

abbrev Entry := String × String

/-- First-occurrence deduplication with an accumulator of already seen
entries; `dedupFirstAux seen l` drops every element of `l` that is in
`seen` or occurred earlier in `l`.  This is the behaviour of the
`unique`/`s` loop at lines 125-130 and of
`DataFrame.drop_duplicates()` (keep="first") at line 134. -/
def dedupFirstAux (seen : List Entry) : List Entry → List Entry
  | [] => []
  | e :: rest =>
    if e ∈ seen then dedupFirstAux seen rest
    else e :: dedupFirstAux (e :: seen) rest

/-- Stable first-occurrence deduplication. -/
def dedupFirst (l : List Entry) : List Entry := dedupFirstAux [] l

/-- The second-page accumulation loop (lines 116-120): append a tuple
only when it is not already present and fewer than 50 entries are
accumulated. -/
def addUnique (data : List Entry) (page : List Entry) : List Entry :=
  page.foldl (fun acc tup => if tup ∉ acc ∧ acc.length < 50 then acc ++ [tup] else acc) data

/-- `unique` of lines 125-130: first-occurrence dedup of the
consolidated page, stopped once 50 unique entries are collected. -/
def consolidatedUnique (rows : List Entry) : List Entry :=
  (dedupFirst rows).take 50

/-- The consolidated-fallback step (lines 122-132).  `consolidated` is
`some rows` when the larger-page load succeeded and `none` when it
failed.  The accumulated list is replaced by the consolidated unique
entries only when `len(unique) >= len(data)`. -/
def fallbackStep (data : List Entry) (consolidated : Option (List Entry)) : List Entry :=
  if data.length < 50 then
    match consolidated with
    | some rows =>
      if data.length ≤ (consolidatedUnique rows).length then consolidatedUnique rows else data
    | none => data
  else data

/-- The whole list-acquisition pipeline of `main` (lines 101-134):
page 1 truncated to 25 rows, page 2 rows added with dedup under the
cap of 50, the consolidated fallback, and the final
`drop_duplicates().head(50)`. -/
def acquireList (page1 page2 : List Entry) (consolidated : Option (List Entry)) : List Entry :=
  let data1 := page1.take 25
  let data2 := addUnique data1 (page2.take 25)
  let data3 := fallbackStep data2 consolidated
  (dedupFirst data3).take 50

/-! ## Retrying loader (load_with_retry, lines 80-95)

The loader is modelled by the outcome of each attempt: `op i` is the
result of attempt number `i` (an exception message, or success once the
row-count validation passed).  The embedding returns the observable
trace of one call: the boolean handed to the caller, the number of
attempts made, the sleeps performed, and the messages printed to
stderr. -/

structure RetryTrace where
  result : Bool
  attemptsMade : ℕ
  sleeps : List ℕ
  logged : List String

/-- The fixed inter-attempt delay, `time.sleep(3)` at line 92. -/
def retryDelay : ℕ := 3

/-- One call of the retry loop with `n` attempts remaining, `made`
attempts already failed, and the last error seen so far.  On success
the loop returns `True` immediately; on failure it records the error,
sleeps the fixed delay and retries; after the last attempt it prints
the last error once and returns `False` (lines 82-95). -/
def loadAux (op : ℕ → Except String Unit) : ℕ → ℕ → Option String → RetryTrace
  | 0, made, lastErr =>
    { result := false, attemptsMade := made, sleeps := [],
      logged := match lastErr with | some e => [e] | none => [] }
  | n + 1, made, _ =>
    match op made with
    | .ok _ => { result := true, attemptsMade := made + 1, sleeps := [], logged := [] }
    | .error e =>
      let rest := loadAux op n (made + 1) (some e)
      { rest with sleeps := retryDelay :: rest.sleeps }

/-- `load_with_retry` (line 80), `tries=3` by default. -/
def load_with_retry (op : ℕ → Except String Unit) (tries : ℕ := 3) : RetryTrace :=
  loadAux op tries 0 none

/-- A concrete run whose three attempts fail with three distinct
causes. -/
def opThreeFailures : ℕ → Except String Unit := fun i =>
  Except.error (if i = 0 then "bad handshake" else if i = 1 then "timeout A" else "timeout B")

/-- The causes of `opThreeFailures`, attempt by attempt. -/
def errThreeFailures : ℕ → String := fun i =>
  if i = 0 then "bad handshake" else if i = 1 then "timeout A" else "timeout B"

/-! ## Historical batch fetch (fetch_adj, lines 153-198)

A symbol's raw history is a list of (timestamp, adjusted-close) pairs,
in the (ascending) order the price source returns them.  A raw
timestamp carries a possible timezone tag which normalization strips
(line 189-190).  Naive timestamps are naturals `32 * month + day`
(day in 1..31), so `t / 32` is the calendar-month bucket of `t`.

`yf.download` aligns the per-symbol series of one batch on the sorted
union of their dates, leaving a null cell where a symbol has no
observation.  `groupby(index).last()` (line 193) keeps, per column,
the last non-null entry of each group, hence per symbol the
chronologically last of its own observations in that month.
`to_period("M").to_timestamp("M")` (line 192) re-stamps every date at
the *start* of its calendar month (`to_timestamp` converts periods at
`how="start"` by default), modelled by `monthStamp`. -/

abbrev Symbol := String

structure Stamp where
  t : ℕ
  tz : Option ℤ

abbrev RawSeries := List (Stamp × ℝ)

abbrev NaiveSeries := List (ℕ × ℝ)

abbrev Market := Symbol → RawSeries

/-- Timezone stripping, `tz_localize(None)` at line 190. -/
def stripTz (ser : RawSeries) : NaiveSeries := ser.map (fun p => (p.1.t, p.2))

/-- Calendar-month bucket of a naive timestamp. -/
def monthOf (t : ℕ) : ℕ := t / 32

/-- The month-start timestamp of month `m` (day 1): the stamp produced
by `to_period("M").to_timestamp("M")`. -/
def monthStamp (m : ℕ) : ℕ := 32 * m + 1

/-- The month-end timestamp of month `m` (day 31): what the spec says
the buckets are stamped with. -/
def monthEndStamp (m : ℕ) : ℕ := 32 * m + 31

/-- Concatenation of a list of lists. -/
def flatAll (ls : List (List α)) : List α := ls.foldr (· ++ ·) []

/-- Insert into a strictly sorted list, skipping duplicates. -/
def insSorted (x : ℕ) : List ℕ → List ℕ
  | [] => [x]
  | y :: ys => if x < y then x :: y :: ys else if x = y then y :: ys else y :: insSorted x ys

/-- Sorted deduplication: the strictly increasing enumeration of the
elements of `l`.  This models the sorted union-of-dates index on which
a download aligns its batch, and `sort_index()` over unique keys. -/
def dedupSorted (l : List ℕ) : List ℕ := l.foldr insSorted []

/-- The naive observation dates of one symbol. -/
def datesOf (mkt : Market) (s : Symbol) : List ℕ := (stripTz (mkt s)).map Prod.fst

/-- The aligned date index of a batch download: the sorted union of the
batch members' observation dates. -/
def alignedDates (mkt : Market) (syms : List Symbol) : List ℕ :=
  dedupSorted (flatAll (syms.map (datesOf mkt)))

/-- The aligned cell of symbol `s` at date `t`: its observed value, or
null when `s` has no observation at `t` (alignment artifact). -/
def cellAt (ser : NaiveSeries) (t : ℕ) : Option ℝ :=
  ((ser.filter (fun p => p.1 = t)).map Prod.snd).getLast?

/-- One step of a last-non-null scan. -/
def lastStep (f : ℕ → Option ℝ) (acc : Option ℝ) (t : ℕ) : Option ℝ :=
  match f t with | some v => some v | none => acc

/-- Last non-null value of a column along a list of dates: the
per-column behaviour of `groupby(...).last()`. -/
def lastSome (f : ℕ → Option ℝ) (ts : List ℕ) : Option ℝ :=
  ts.foldl (lastStep f) none

/-- The monthly bucket value of symbol `s` in month `m`, computed over
the batch-aligned dates (line 193). -/
def bucketCell (mkt : Market) (syms : List Symbol) (s : Symbol) (m : ℕ) : Option ℝ :=
  lastSome (cellAt (stripTz (mkt s))) ((alignedDates mkt syms).filter (fun t => monthOf t = m))

/-- The same bucket value computed from the symbol's own series only. -/
def bucketOwn (mkt : Market) (s : Symbol) (m : ℕ) : Option ℝ :=
  lastSome (cellAt (stripTz (mkt s))) ((dedupSorted (datesOf mkt s)).filter (fun t => monthOf t = m))

/-- All month buckets of a batch, ascending. -/
def monthsAll (mkt : Market) (syms : List Symbol) : List ℕ :=
  dedupSorted ((alignedDates mkt syms).map monthOf)

/-- The last `n` elements of a list, `DataFrame.tail(n)`. -/
def tailN (n : ℕ) (l : List α) : List α := l.drop (l.length - n)

/-- The months a normalized batch retains: the most recent 12 buckets
(`.tail(12)`, line 193). -/
def monthsIdx (mkt : Market) (syms : List Symbol) : List ℕ :=
  tailN 12 (monthsAll mkt syms)

/-- A time-indexed table: row keys (ascending timestamps), column keys
(symbols), and cells (null outside the index/columns). -/
@[ext]
structure Table where
  index : List ℕ
  cols : List Symbol
  cell : ℕ → Symbol → Option ℝ

/-- The initial `all_adj = pd.DataFrame()` of line 154. -/
def Table.emptyT : Table := ⟨[], [], fun _ _ => none⟩

/-- `DataFrame.empty`: true when some axis has length 0. -/
def Table.isEmptyT (a : Table) : Bool := a.index.isEmpty || a.cols.isEmpty

/-- Outer join on rows, column concatenation (line 195): union of the
indices; a cell of a left column is null on rows the left table does
not have, and symmetrically. -/
def Table.join (a b : Table) : Table where
  index := dedupSorted (a.index ++ b.index)
  cols := a.cols ++ b.cols
  cell := fun t s =>
    if s ∈ a.cols then (if t ∈ a.index then a.cell t s else none)
    else (if t ∈ b.index then b.cell t s else none)

/-- Column restriction of a table (the hypothetical all-at-once table
with the failed batches' columns dropped). -/
def Table.restrict (a : Table) (keep : Symbol → Bool) : Table where
  index := a.index
  cols := a.cols.filter keep
  cell := fun t s => if keep s then a.cell t s else none

/-- The normalized table of one fetched batch (lines 187-193): strip
timezones, bucket by calendar month keeping the last observation,
stamp at the month boundary, sort ascending, keep the last 12 buckets. -/
def normBatch (mkt : Market) (syms : List Symbol) : Table where
  index := (monthsIdx mkt syms).map monthStamp
  cols := syms
  cell := fun t s =>
    if t ∈ (monthsIdx mkt syms).map monthStamp ∧ s ∈ syms then
      bucketCell mkt syms s (monthOf t)
    else none

/-- Fuel-driven batching of the symbol list into runs of at most 20
(`symbols[i:i+20]`, lines 155-156). -/
def chunksAux : ℕ → List Symbol → List (List Symbol)
  | 0, _ => []
  | _, [] => []
  | n + 1, x :: xs => (x :: xs).take 20 :: chunksAux n ((x :: xs).drop 20)

/-- The batches of a symbol list. -/
def chunks20 (l : List Symbol) : List (List Symbol) := chunksAux l.length l

/-- One iteration of the batch loop of `fetch_adj` (lines 155-195).
`fails b = true` models a batch `b` whose download kept raising after
both tries, or whose result had no "Adj Close" field: such a batch is
skipped entirely.  A successful batch is normalized and outer-joined
into the running table, the first one replacing the initial empty
frame. -/
def fetchStep (mkt : Market) (fails : List Symbol → Bool) (acc : Table) (batch : List Symbol) : Table :=
  if fails batch then acc
  else if acc.isEmptyT then normBatch mkt batch else acc.join (normBatch mkt batch)

/-- `fetch_adj` (lines 153-198). -/
def fetch_adj (mkt : Market) (fails : List Symbol → Bool) (syms : List Symbol) : Table :=
  (chunks20 syms).foldl (fetchStep mkt fails) Table.emptyT

/-- The symbols of the batches that did not fail, in batch order. -/
def successCols (fails : List Symbol → Bool) (syms : List Symbol) : List Symbol :=
  flatAll ((chunks20 syms).filter (fun b => !fails b))

/-- Table equivalence: same row set (both indices are sorted), same
column set, same cell values. -/
def Table.Eqv (a b : Table) : Prop :=
  a.index = b.index ∧ a.cols.Perm b.cols ∧ ∀ t ∈ a.index, ∀ s, a.cell t s = b.cell t s

/-! ## Concrete markets used in counterexamples and witnesses -/

/-- A market whose every symbol has one observation on day 5 of
month 0. -/
noncomputable def mktOneObs : Market := fun _ => [({ t := 32 * 0 + 5, tz := none }, (1 : ℝ))]

/-- 21 symbols: enough for two batches (20 + 1). -/
def ceSyms : List Symbol :=
  ["A00", "A01", "A02", "A03", "A04", "A05", "A06", "A07", "A08", "A09",
   "A10", "A11", "A12", "A13", "A14", "A15", "A16", "A17", "A18", "A19", "B20"]

/-- A market where the 20 first-batch symbols have their only
observation in month 0, while the second-batch symbol has one in each
of months 2..13.  The batched fetch keeps month 0 (first batch tail is
a no-op) while the all-at-once fetch trims it (13 global buckets,
tail(12)). -/
noncomputable def ceMarket : Market := fun s =>
  if s = "B20" then (List.range 12).map (fun k => ({ t := monthStamp (k + 2), tz := none }, (1 : ℝ)))
  else [({ t := monthStamp 0, tz := none }, (1 : ℝ))]

/-! ## Return/Risk calculator (main, lines 226-265)

Pandas reductions (`count`, `prod`, `mean`, `std`, cross-sectional
`mean(axis=1)`) skip NaN cells; a missing cell is `none`. -/

/-- The non-missing entries of a column, in order. -/
def somes (l : List (Option ℝ)) : List ℝ := l.filterMap id

/-- `count()`: the number of non-missing entries (line 239). -/
def countN (l : List (Option ℝ)) : ℕ := (somes l).length

/-- `(1.0 + retn).prod()`: the product of `1 + r` over the non-missing
entries (line 240). -/
def prodOnePlus (l : List (Option ℝ)) : ℝ := ((somes l).map (fun r => 1 + r)).prod

/-- The geometric mean monthly return, line 240:
`(1.0 + retn).prod() ** (1.0 / counts) - 1.0`. -/
noncomputable def meanGeomOf (l : List (Option ℝ)) : ℝ :=
  prodOnePlus l ^ ((1 : ℝ) / (countN l : ℝ)) - 1

/-- The arithmetic mean, line 243 (`mean()` skips missing entries). -/
noncomputable def meanArithOf (l : List (Option ℝ)) : ℝ :=
  (somes l).sum / (countN l : ℝ)

/-- Population variance (denominator `n`, not `n - 1`). -/
noncomputable def varPopOf (l : List (Option ℝ)) : ℝ :=
  ((somes l).map (fun r => (r - meanArithOf l) ^ 2)).sum / (countN l : ℝ)

/-- `std(ddof=0)`, line 246: the population standard deviation. -/
noncomputable def volOf (l : List (Option ℝ)) : ℝ := Real.sqrt (varPopOf l)

/-- `score = mean_geom / vol.replace(0, np.nan)`, lines 249-250: an
exactly-zero volatility is replaced by NaN, and the division propagates
it, so the score is missing rather than an error. -/
noncomputable def scoreOf (l : List (Option ℝ)) : Option ℝ :=
  if volOf l = 0 then none else some (meanGeomOf l / volOf l)

/-- One simple return `p1 / p0 - 1`; missing when either price is
missing (`pct_change` modelled without forward-filling). -/
noncomputable def pctCell (p0 p1 : Option ℝ) : Option ℝ :=
  match p0, p1 with
  | some a, some b => some (b / a - 1)
  | _, _ => none

/-- Consecutive row pairs of the early window: the first 7 rows of the
price table give 6 return rows (lines 235-236). -/
def firstWindowPairs (p : Table) : List (ℕ × ℕ) :=
  (p.index.take 7).zip (p.index.take 7).tail

/-- The early-window return column of one symbol (line 236). -/
noncomputable def retFirst6 (p : Table) (s : Symbol) : List (Option ℝ) :=
  (firstWindowPairs p).map (fun q => pctCell (p.cell q.1 s) (p.cell q.2 s))

/-- `mean_geom_first6m` per symbol (lines 239-240). -/
noncomputable def mean_geom_first6m (p : Table) (s : Symbol) : ℝ :=
  meanGeomOf (retFirst6 p s)

/-- The return of window position `j` (0..5) of a symbol, read off the
price rows `j` and `j + 1` directly. -/
noncomputable def retAt (p : Table) (s : Symbol) (j : ℕ) : Option ℝ :=
  pctCell (p.cell (p.index.getD j 0) s) (p.cell (p.index.getD (j + 1) 0) s)

/-- The spec's formula for the geometric mean: `product(1+r_i)^(1/n) - 1`
with the product and `n` ranging over the symbol's non-missing returns
of the early window, indexed by window position. -/
noncomputable def specGeomFormula (p : Table) (s : Symbol) : ℝ :=
  (∏ j ∈ (Finset.range 6).filter (fun j => (retAt p s j).isSome),
      (1 + (retAt p s j).getD 0))
    ^ ((1 : ℝ) / (((Finset.range 6).filter (fun j => (retAt p s j).isSome)).card : ℝ))
    - 1

/-- One row of `crit` (lines 252-257). -/
structure ScoreRecord where
  sym : Symbol
  meanGeom : ℝ
  meanArith : ℝ
  vol : ℝ
  score : Option ℝ

/-- Comparison of two (score, geometric-mean) sort keys, descending on
both, with a missing score after every defined score (pandas
`sort_values(..., ascending=[False, False])` places NaN last). -/
def keyLE : Option ℝ → ℝ → Option ℝ → ℝ → Prop
  | none, g1, none, g2 => g2 ≤ g1
  | none, _, some _, _ => False
  | some _, _, none, _ => True
  | some x, g1, some y, g2 => y < x ∨ (y = x ∧ g2 ≤ g1)

/-- The row order produced by line 261. -/
def recLE (a b : ScoreRecord) : Prop :=
  keyLE a.score a.meanGeom b.score b.meanGeom

noncomputable instance : DecidableRel recLE := fun _ _ => Classical.dec _

instance : IsTotal ScoreRecord recLE where
  total a b := by
    show keyLE a.score a.meanGeom b.score b.meanGeom
      ∨ keyLE b.score b.meanGeom a.score a.meanGeom
    cases ha : a.score with
    | none =>
      cases hb : b.score with
      | none =>
        simp only [keyLE]
        exact le_total b.meanGeom a.meanGeom
      | some y =>
        simp only [keyLE]
        exact Or.inr trivial
    | some x =>
      cases hb : b.score with
      | none => exact Or.inl trivial
      | some y =>
        simp only [keyLE]
        rcases lt_trichotomy y x with hlt | heq | hgt
        · exact Or.inl (Or.inl hlt)
        · rcases le_total b.meanGeom a.meanGeom with hle | hle
          · exact Or.inl (Or.inr ⟨heq, hle⟩)
          · exact Or.inr (Or.inr ⟨heq.symm, hle⟩)
        · exact Or.inr (Or.inl hgt)

instance : IsTrans ScoreRecord recLE where
  trans a b c hab hbc := by
    have hab2 : keyLE a.score a.meanGeom b.score b.meanGeom := hab
    have hbc2 : keyLE b.score b.meanGeom c.score c.meanGeom := hbc
    show keyLE a.score a.meanGeom c.score c.meanGeom
    cases ha : a.score with
    | none =>
      cases hb : b.score with
      | none =>
        rw [ha, hb] at hab2
        simp only [keyLE] at hab2
        cases hc : c.score with
        | none =>
          rw [hb, hc] at hbc2
          simp only [keyLE] at hbc2 ⊢
          exact le_trans hbc2 hab2
        | some z =>
          rw [hb, hc] at hbc2
          simp only [keyLE] at hbc2
      | some y =>
        rw [ha, hb] at hab2
        simp only [keyLE] at hab2
    | some x =>
      cases hc : c.score with
      | none => exact trivial
      | some z =>
        cases hb : b.score with
        | none =>
          rw [hb, hc] at hbc2
          simp only [keyLE] at hbc2
        | some y =>
          rw [ha, hb] at hab2
          rw [hb, hc] at hbc2
          simp only [keyLE] at hab2 hbc2 ⊢
          rcases hab2 with hlt1 | ⟨heq1, hle1⟩
          · rcases hbc2 with hlt2 | ⟨heq2, hle2⟩
            · exact Or.inl (lt_trans hlt2 hlt1)
            · exact Or.inl (lt_of_le_of_lt (le_of_eq heq2) hlt1)
          · rcases hbc2 with hlt2 | ⟨heq2, hle2⟩
            · exact Or.inl (lt_of_lt_of_le hlt2 (le_of_eq heq1))
            · exact Or.inr ⟨heq2.trans heq1, le_trans hle2 hle1⟩

/-- The exact message of the `ValueError` raised at line 230. -/
def insufficientMsg : String :=
  "No hay suficientes meses para calcular 6 retornos (se requieren al menos 7 puntos)."

/-- One score record of the criteria table (lines 252-257); the name
column is joined later and does not affect the statistics. -/
noncomputable def recordOf (p : Table) (s : Symbol) : ScoreRecord :=
  { sym := s
  , meanGeom := mean_geom_first6m p s
  , meanArith := meanArithOf (retFirst6 p s)
  , vol := volOf (retFirst6 p s)
  , score := scoreOf (retFirst6 p s) }

/-- The rows of `crit`, one per price-table column. -/
noncomputable def critOf (p : Table) : List ScoreRecord := p.cols.map (recordOf p)

/-- `crit.sort_values(["score", "mean_geom_first6m"],
ascending=[False, False])`, line 261. -/
noncomputable def rankRecords (l : List ScoreRecord) : List ScoreRecord :=
  List.insertionSort recLE l

/-- Lines 229-230 and 252-261 of `main`: fail before computing any
return when fewer than 7 monthly rows are available, otherwise build
and rank the score records. -/
noncomputable def runCalc (p : Table) : Except String (List ScoreRecord) :=
  if p.index.length < 7 then Except.error insufficientMsg
  else Except.ok (rankRecords (critOf p))

/-- The process exit code: the `except` handler of `main` prints the
error and calls `sys.exit(1)` (lines 297-299). -/
def exitCodeOf : Except String (List ScoreRecord) → ℕ
  | Except.error _ => 1
  | Except.ok _ => 0

/-! ## Portfolio selector and evaluator (main, lines 263-291) -/

/-- `selected = crit.head(10)`, line 264. -/
noncomputable def selectedOf (l : List ScoreRecord) : List ScoreRecord :=
  (rankRecords l).take 10

/-- `selected["weight"] = 0.10`, line 265: the constant weight column. -/
noncomputable def weightsOf (l : List ScoreRecord) : List ℝ :=
  (selectedOf l).map (fun _ => (0.10 : ℝ))

/-- Cross-sectional mean ignoring missing values, `mean(axis=1,
skipna=True)` (line 273); a row whose entries are all missing yields a
missing portfolio return. -/
noncomputable def rowMeanSkipNA (row : List (Option ℝ)) : Option ℝ :=
  if countN row = 0 then none else some ((somes row).sum / (countN row : ℝ))

/-- The monthly portfolio-return series (line 273). -/
noncomputable def portReturns (rows : List (List (Option ℝ))) : List (Option ℝ) :=
  rows.map rowMeanSkipNA

structure Summary where
  months : ℕ
  meanMonthly : ℝ
  stdMonthly : ℝ
  cumulative : ℝ

/-- The summary statistics (lines 276-284): `months` is
`retn_last6_sel.shape[0]`, the number of rows of the later-window
return table; the mean, population standard deviation and compounded
product all skip missing entries. -/
noncomputable def summaryOf (rows : List (List (Option ℝ))) : Summary :=
  { months := rows.length
  , meanMonthly := meanArithOf (portReturns rows)
  , stdMonthly := volOf (portReturns rows)
  , cumulative := prodOnePlus (portReturns rows) - 1 }

/-- Consecutive row pairs of the later window: rows 5..11 of the price
table give 6 return rows (lines 268-269). -/
def lastWindowPairs (p : Table) : List (ℕ × ℕ) :=
  (p.index.drop 5).zip (p.index.drop 5).tail

/-- The later-window return rows restricted to the selected symbols
(line 270): one row per month, one entry per selected symbol. -/
noncomputable def retnLastRows (p : Table) (sel : List Symbol) : List (List (Option ℝ)) :=
  (lastWindowPairs p).map (fun q => sel.map (fun s => pctCell (p.cell q.1 s) (p.cell q.2 s)))

/-- The portfolio summary of the run (lines 276-284). -/
noncomputable def portfolioSummary (p : Table) (sel : List Symbol) : Summary :=
  summaryOf (retnLastRows p sel)

/-- The spec's example returns. -/
noncomputable def exampleRets : List (Option ℝ) :=
  [some 0.10, some (-0.05), some 0.02, some 0.00, some 0.03, some (-0.01)]

/-- A 7-row, one-column price table (constant price 1). -/
noncomputable def tbl7 : Table :=
  { index := [1, 33, 65, 97, 129, 161, 193]
  , cols := ["A"]
  , cell := fun t s =>
      if s = "A" ∧ t ∈ [1, 33, 65, 97, 129, 161, 193] then some 1 else none }

/-- A 5-row price table: not enough history. -/
noncomputable def tbl5 : Table :=
  { index := [1, 33, 65, 97, 129], cols := ["A"], cell := fun _ _ => some 1 }

/-- A blank score record, for concrete selections. -/
noncomputable def recBlank : ScoreRecord :=
  { sym := "X", meanGeom := 0, meanArith := 0, vol := 0, score := none }

/-! ## Lemmas about first-occurrence deduplication -/

theorem mem_dedupFirstAux {seen : List Entry} {l : List Entry} {a : Entry} :
    a ∈ dedupFirstAux seen l ↔ a ∈ l ∧ a ∉ seen := by
  induction l generalizing seen with
  | nil => simp [dedupFirstAux]
  | cons e rest ih =>
    by_cases he : e ∈ seen
    · rw [dedupFirstAux, if_pos he, ih]
      constructor
      · rintro ⟨h1, h2⟩; exact ⟨List.mem_cons_of_mem _ h1, h2⟩
      · rintro ⟨h1, h2⟩
        rcases List.mem_cons.mp h1 with rfl | h1
        · exact absurd he h2
        · exact ⟨h1, h2⟩
    · rw [dedupFirstAux, if_neg he]
      constructor
      · intro hmem
        rcases List.mem_cons.mp hmem with rfl | hmem
        · exact ⟨List.mem_cons_self _ _, he⟩
        · obtain ⟨h1, h2⟩ := ih.mp hmem
          refine ⟨List.mem_cons_of_mem _ h1, fun hs => ?_⟩
          exact h2 (List.mem_cons_of_mem _ hs)
      · rintro ⟨h1, h2⟩
        rcases List.mem_cons.mp h1 with rfl | h1
        · exact List.mem_cons_self _ _
        · by_cases hae : a = e
          · exact hae ▸ List.mem_cons_self _ _
          · refine List.mem_cons_of_mem _ (ih.mpr ⟨h1, fun hs => ?_⟩)
            rcases List.mem_cons.mp hs with h | h
            · exact hae h
            · exact h2 h

theorem nodup_dedupFirstAux (seen : List Entry) (l : List Entry) :
    (dedupFirstAux seen l).Nodup := by
  induction l generalizing seen with
  | nil => simp [dedupFirstAux]
  | cons e rest ih =>
    by_cases he : e ∈ seen
    · simpa [dedupFirstAux, if_pos he] using ih seen
    · rw [dedupFirstAux, if_neg he]
      refine List.nodup_cons.mpr ⟨?_, ih (e :: seen)⟩
      intro hb
      exact (mem_dedupFirstAux.mp hb).2 (List.mem_cons_self _ _)

theorem dedupFirst_nodup (l : List Entry) : (dedupFirst l).Nodup :=
  nodup_dedupFirstAux [] l

theorem mem_dedupFirst {l : List Entry} {a : Entry} : a ∈ dedupFirst l ↔ a ∈ l := by
  simp [dedupFirst, mem_dedupFirstAux]

theorem dedupFirstAux_sublist (seen : List Entry) (l : List Entry) :
    (dedupFirstAux seen l).Sublist l := by
  induction l generalizing seen with
  | nil => simp [dedupFirstAux]
  | cons e rest ih =>
    by_cases he : e ∈ seen
    · simpa [dedupFirstAux, if_pos he] using (ih seen).cons e
    · simpa [dedupFirstAux, if_neg he] using (ih (e :: seen)).cons₂ e

theorem dedupFirst_sublist (l : List Entry) : (dedupFirst l).Sublist l :=
  dedupFirstAux_sublist [] l

/-- With an already-seen entry the traversal behaves as if every later
copy of that entry had been filtered out. -/
theorem dedupFirstAux_filter_of_mem (l : List Entry) (seen : List Entry) (a : Entry)
    (ha : a ∈ seen) :
    dedupFirstAux seen l = dedupFirstAux seen (l.filter (fun x => x ≠ a)) := by
  induction l generalizing seen with
  | nil => simp [dedupFirstAux]
  | cons e rest ih =>
    by_cases hea : e = a
    · subst hea
      simp only [dedupFirstAux, if_pos ha, List.filter_cons]
      have : (decide (e ≠ e)) = false := by simp
      rw [this]
      exact ih seen ha
    · simp only [List.filter_cons]
      have : (decide (e ≠ a)) = true := by simpa using hea
      rw [this]
      by_cases he : e ∈ seen
      · simp only [dedupFirstAux, if_pos he]
        exact ih seen ha
      · simp only [dedupFirstAux, if_neg he]
        rw [ih (e :: seen) (List.mem_cons_of_mem _ ha)]

/-- The traversal only uses the seen-accumulator through membership, so
any two accumulators with the same members give the same result. -/
theorem dedupFirstAux_congr (l : List Entry) {seen₁ seen₂ : List Entry}
    (h : ∀ x, x ∈ seen₁ ↔ x ∈ seen₂) :
    dedupFirstAux seen₁ l = dedupFirstAux seen₂ l := by
  induction l generalizing seen₁ seen₂ with
  | nil => rfl
  | cons e rest ih =>
    by_cases he : e ∈ seen₁
    · have he2 : e ∈ seen₂ := (h e).mp he
      rw [dedupFirstAux, if_pos he, dedupFirstAux, if_pos he2]
      exact ih h
    · have he2 : e ∉ seen₂ := fun hx => he ((h e).mpr hx)
      rw [dedupFirstAux, if_neg he, dedupFirstAux, if_neg he2]
      refine congrArg _ (ih ?_)
      intro x
      constructor
      · intro hx
        rcases List.mem_cons.mp hx with rfl | hx
        · exact List.mem_cons_self _ _
        · exact List.mem_cons_of_mem _ ((h x).mp hx)
      · intro hx
        rcases List.mem_cons.mp hx with rfl | hx
        · exact List.mem_cons_self _ _
        · exact List.mem_cons_of_mem _ ((h x).mpr hx)

/-- Enlarging the seen-accumulator with an entry that does not occur in
the list leaves the traversal unchanged. -/
theorem dedupFirstAux_cons_of_not_mem (l : List Entry) (seen : List Entry) (a : Entry)
    (ha : a ∉ l) :
    dedupFirstAux (a :: seen) l = dedupFirstAux seen l := by
  induction l generalizing seen with
  | nil => rfl
  | cons e rest ih =>
    have hea : e ≠ a := fun h => ha (h ▸ List.mem_cons_self _ _)
    have ha' : a ∉ rest := fun h => ha (List.mem_cons_of_mem _ h)
    by_cases he : e ∈ seen
    · have hmem : e ∈ a :: seen := List.mem_cons_of_mem _ he
      simp only [dedupFirstAux, if_pos he, if_pos hmem]
      exact ih seen ha'
    · have hmem : e ∉ a :: seen := by
        intro h
        rcases List.mem_cons.mp h with h | h
        · exact hea h
        · exact he h
      simp only [dedupFirstAux, if_neg he, if_neg hmem]
      refine congrArg _ ?_
      have hswap : dedupFirstAux (e :: a :: seen) rest = dedupFirstAux (a :: e :: seen) rest := by
        refine dedupFirstAux_congr rest ?_
        intro x
        simp only [List.mem_cons]
        tauto
      rw [hswap, ih (e :: seen) ha']

/-- First occurrence wins: deduplicating `a :: l` keeps the head and
removes every later copy of it. -/
theorem dedupFirst_cons (a : Entry) (l : List Entry) :
    dedupFirst (a :: l) = a :: dedupFirst (l.filter (fun x => x ≠ a)) := by
  show dedupFirstAux [] (a :: l) = _
  have : a ∉ ([] : List Entry) := by simp
  simp only [dedupFirstAux, if_neg this]
  rw [dedupFirstAux_filter_of_mem l [a] a (List.mem_cons_self _ _)]
  rw [dedupFirstAux_cons_of_not_mem _ [] a (by simp)]
  rfl

/-! ## Sorted deduplication -/

theorem mem_insSorted {x a : ℕ} {l : List ℕ} : a ∈ insSorted x l ↔ a = x ∨ a ∈ l := by
  induction l with
  | nil => simp [insSorted]
  | cons y ys ih =>
    rw [insSorted]
    by_cases h1 : x < y
    · rw [if_pos h1]; simp [List.mem_cons]
    · rw [if_neg h1]
      by_cases h2 : x = y
      · subst h2; rw [if_pos rfl]; simp [List.mem_cons]
      · rw [if_neg h2]
        simp only [List.mem_cons, ih]
        tauto

theorem sorted_insSorted {x : ℕ} {l : List ℕ} (h : l.Sorted (· < ·)) :
    (insSorted x l).Sorted (· < ·) := by
  induction l with
  | nil => simp [insSorted]
  | cons y ys ih =>
    rw [List.sorted_cons] at h
    rw [insSorted]
    by_cases h1 : x < y
    · rw [if_pos h1, List.sorted_cons]
      refine ⟨?_, List.sorted_cons.mpr h⟩
      intro b hb
      rcases List.mem_cons.mp hb with rfl | hb
      · exact h1
      · exact lt_trans h1 (h.1 b hb)
    · rw [if_neg h1]
      by_cases h2 : x = y
      · rw [if_pos h2]; exact List.sorted_cons.mpr h
      · rw [if_neg h2, List.sorted_cons]
        refine ⟨?_, ih h.2⟩
        intro b hb
        rcases mem_insSorted.mp hb with rfl | hb
        · omega
        · exact h.1 b hb

theorem sorted_dedupSorted (l : List ℕ) : (dedupSorted l).Sorted (· < ·) := by
  induction l with
  | nil => simp [dedupSorted]
  | cons x xs ih => exact sorted_insSorted ih

theorem mem_dedupSorted {l : List ℕ} {a : ℕ} : a ∈ dedupSorted l ↔ a ∈ l := by
  induction l with
  | nil => simp [dedupSorted]
  | cons x xs ih =>
    show a ∈ insSorted x (dedupSorted xs) ↔ _
    rw [mem_insSorted, ih, List.mem_cons]

/-- Two strictly sorted lists with the same members are equal. -/
theorem sortedLt_ext : ∀ {l₁ l₂ : List ℕ}, l₁.Sorted (· < ·) → l₂.Sorted (· < ·) →
    (∀ a, a ∈ l₁ ↔ a ∈ l₂) → l₁ = l₂ := by
  intro l₁
  induction l₁ with
  | nil =>
    intro l₂ _ _ h
    cases l₂ with
    | nil => rfl
    | cons b t => exact absurd ((h b).mpr (List.mem_cons_self _ _)) (by simp)
  | cons a t₁ ih =>
    intro l₂ h₁ h₂ h
    cases l₂ with
    | nil => exact absurd ((h a).mp (List.mem_cons_self _ _)) (by simp)
    | cons b t₂ =>
      have hab : a = b := by
        rcases List.mem_cons.mp ((h a).mp (List.mem_cons_self _ _)) with h1 | h1
        · exact h1
        · rcases List.mem_cons.mp ((h b).mpr (List.mem_cons_self _ _)) with h2 | h2
          · exact h2.symm
          · have hba := List.rel_of_sorted_cons h₂ a h1
            have hab2 := List.rel_of_sorted_cons h₁ b h2
            omega
      subst hab
      have htail : ∀ x, x ∈ t₁ ↔ x ∈ t₂ := by
        intro x
        constructor
        · intro hx
          have hax := List.rel_of_sorted_cons h₁ x hx
          rcases List.mem_cons.mp ((h x).mp (List.mem_cons_of_mem _ hx)) with rfl | h2
          · omega
          · exact h2
        · intro hx
          have hax := List.rel_of_sorted_cons h₂ x hx
          rcases List.mem_cons.mp ((h x).mpr (List.mem_cons_of_mem _ hx)) with rfl | h2
          · omega
          · exact h2
      rw [ih h₁.of_cons h₂.of_cons htail]

theorem dedupSorted_eq_self {l : List ℕ} (h : l.Sorted (· < ·)) : dedupSorted l = l :=
  sortedLt_ext (sorted_dedupSorted l) h (fun _ => mem_dedupSorted)

theorem dedupSorted_append_self {l : List ℕ} (h : l.Sorted (· < ·)) :
    dedupSorted (l ++ l) = l :=
  sortedLt_ext (sorted_dedupSorted _) h (fun a => by rw [mem_dedupSorted]; simp)

theorem mem_flatAll {ls : List (List α)} {a : α} : a ∈ flatAll ls ↔ ∃ l ∈ ls, a ∈ l := by
  induction ls with
  | nil => simp [flatAll]
  | cons x xs ih =>
    show a ∈ x ++ flatAll xs ↔ _
    rw [List.mem_append, ih]
    simp

theorem flatAll_filter_sublist (p : List α → Bool) (ls : List (List α)) :
    (flatAll (ls.filter p)).Sublist (flatAll ls) := by
  induction ls with
  | nil => simp [flatAll]
  | cons x xs ih =>
    rw [List.filter_cons]
    cases hp : p x
    · rw [if_neg (by simp [hp])]
      exact ih.trans (List.sublist_append_right x (flatAll xs))
    · rw [if_pos (by simp [hp])]
      show (x ++ flatAll (xs.filter p)).Sublist (x ++ flatAll xs)
      exact ih.append_left x

/-! ## Cells and last-observation scans -/

theorem lastSome_filter (f : ℕ → Option ℝ) (l : List ℕ) :
    lastSome f l = lastSome f (l.filter (fun t => (f t).isSome)) := by
  suffices h : ∀ acc, l.foldl (lastStep f) acc
      = (l.filter (fun t => (f t).isSome)).foldl (lastStep f) acc from h none
  induction l with
  | nil => intro acc; rfl
  | cons t ts ih =>
    intro acc
    rw [List.foldl_cons, List.filter_cons]
    cases hf : f t with
    | some v =>
      rw [if_pos (by simp [hf]), List.foldl_cons]
      exact ih _
    | none =>
      rw [if_neg (by simp [hf]), lastStep, hf]
      exact ih acc

theorem cellAt_isSome {ser : NaiveSeries} {t : ℕ} :
    (cellAt ser t).isSome = true ↔ t ∈ ser.map Prod.fst := by
  induction ser with
  | nil => simp [cellAt]
  | cons p ps ih =>
    rw [cellAt, List.filter_cons]
    by_cases h : p.1 = t
    · rw [if_pos (by simp [h])]
      constructor
      · intro _
        exact List.mem_map.mpr ⟨p, List.mem_cons_self _ _, h⟩
      · intro _
        rw [List.map_cons]
        cases hlast : ((ps.filter (fun q => q.1 = t)).map Prod.snd).getLast? with
        | some v => simp [List.getLast?_cons, hlast]
        | none =>
          have : (ps.filter (fun q => q.1 = t)).map Prod.snd = [] :=
            List.getLast?_eq_none_iff.mp hlast
          simp [List.getLast?_cons, hlast]
    · rw [if_neg (by simp [h])]
      show (cellAt ps t).isSome = true ↔ t ∈ List.map Prod.fst (p :: ps)
      rw [ih, List.map_cons, List.mem_cons]
      constructor
      · exact Or.inr
      · rintro (rfl | hm)
        · exact absurd rfl h
        · exact hm

theorem lastSome_congr {f : ℕ → Option ℝ} {l₁ l₂ : List ℕ}
    (h : l₁.filter (fun t => (f t).isSome) = l₂.filter (fun t => (f t).isSome)) :
    lastSome f l₁ = lastSome f l₂ := by
  rw [lastSome_filter f l₁, lastSome_filter f l₂, h]

/-- The monthly bucket of a symbol does not depend on which other
symbols share its batch: `groupby(...).last()` skips the null cells
that alignment with the rest of the batch introduced. -/
theorem bucketCell_eq_bucketOwn (mkt : Market) {syms : List Symbol} {s : Symbol}
    (hs : s ∈ syms) (m : ℕ) : bucketCell mkt syms s m = bucketOwn mkt s m := by
  rw [bucketCell, bucketOwn]
  refine lastSome_congr ?_
  refine sortedLt_ext ?_ ?_ ?_
  · exact ((sorted_dedupSorted _).filter _).filter _
  · exact ((sorted_dedupSorted _).filter _).filter _
  · intro t
    simp only [List.mem_filter, mem_dedupSorted, decide_eq_true_eq]
    constructor
    · rintro ⟨⟨_, hmon⟩, hsome⟩
      exact ⟨⟨cellAt_isSome.mp hsome, hmon⟩, hsome⟩
    · rintro ⟨⟨htd, hmon⟩, hsome⟩
      refine ⟨⟨?_, hmon⟩, hsome⟩
      show t ∈ dedupSorted (flatAll (syms.map (datesOf mkt)))
      rw [mem_dedupSorted]
      exact mem_flatAll.mpr ⟨datesOf mkt s, List.mem_map_of_mem _ hs, htd⟩

/-! ## Months seen by a batch -/

theorem mem_alignedDates {mkt : Market} {syms : List Symbol} {t : ℕ} :
    t ∈ alignedDates mkt syms ↔ ∃ s ∈ syms, t ∈ datesOf mkt s := by
  rw [alignedDates, mem_dedupSorted, mem_flatAll]
  constructor
  · rintro ⟨l, hl, ht⟩
    obtain ⟨s, hs, rfl⟩ := List.mem_map.mp hl
    exact ⟨s, hs, ht⟩
  · rintro ⟨s, hs, ht⟩
    exact ⟨datesOf mkt s, List.mem_map_of_mem _ hs, ht⟩

theorem mem_monthsAll {mkt : Market} {syms : List Symbol} {m : ℕ} :
    m ∈ monthsAll mkt syms ↔ ∃ s ∈ syms, m ∈ (datesOf mkt s).map monthOf := by
  rw [monthsAll, mem_dedupSorted, List.mem_map]
  constructor
  · rintro ⟨t, ht, rfl⟩
    obtain ⟨s, hs, htd⟩ := mem_alignedDates.mp ht
    exact ⟨s, hs, List.mem_map_of_mem _ htd⟩
  · rintro ⟨s, hs, hm⟩
    obtain ⟨t, htd, rfl⟩ := List.mem_map.mp hm
    exact ⟨t, mem_alignedDates.mpr ⟨s, hs, htd⟩, rfl⟩

/-- Under the same-months hypothesis, every nonempty sub-batch of the
symbol list is bucketed into the same month list. -/
theorem monthsAll_eq (mkt : Market) {syms : List Symbol} {M : List ℕ}
    (hM : ∀ s ∈ syms, ∀ m, m ∈ (datesOf mkt s).map monthOf ↔ m ∈ M)
    {b : List Symbol} (hb : ∀ s ∈ b, s ∈ syms) (hbne : b ≠ []) :
    monthsAll mkt b = dedupSorted M := by
  refine sortedLt_ext (sorted_dedupSorted _) (sorted_dedupSorted M) ?_
  intro m
  rw [mem_monthsAll, mem_dedupSorted]
  constructor
  · rintro ⟨s, hs, hm⟩
    exact (hM s (hb s hs) m).mp hm
  · intro hm
    obtain ⟨s, hs⟩ := List.exists_mem_of_ne_nil b hbne
    exact ⟨s, hs, (hM s (hb s hs) m).mpr hm⟩

theorem tailN_sublist (n : ℕ) (l : List α) : (tailN n l).Sublist l :=
  List.drop_sublist _ _

theorem tailN_length_le (n : ℕ) (l : List α) : (tailN n l).length ≤ n := by
  rw [tailN, List.length_drop]; omega

theorem tailN_ne_nil {n : ℕ} (hn : 0 < n) {l : List α} (h : l ≠ []) : tailN n l ≠ [] := by
  have hl : 0 < l.length := List.length_pos.mpr h
  apply List.ne_nil_of_length_pos
  rw [tailN, List.length_drop]
  omega

theorem dedupSorted_ne_nil {M : List ℕ} (h : M ≠ []) : dedupSorted M ≠ [] := by
  obtain ⟨a, ha⟩ := List.exists_mem_of_ne_nil M h
  exact List.ne_nil_of_mem (mem_dedupSorted.mpr ha)

theorem monthOf_monthStamp (m : ℕ) : monthOf (monthStamp m) = m := by
  rw [monthOf, monthStamp]
  omega

theorem monthStamp_lt_monthStamp {a b : ℕ} (h : a < b) : monthStamp a < monthStamp b := by
  rw [monthStamp, monthStamp]; omega

/-- The canonical index of a normalized table when every symbol covers
the month list `M`. -/
theorem monthsIdx_eq (mkt : Market) {syms : List Symbol} {M : List ℕ}
    (hM : ∀ s ∈ syms, ∀ m, m ∈ (datesOf mkt s).map monthOf ↔ m ∈ M)
    {b : List Symbol} (hb : ∀ s ∈ b, s ∈ syms) (hbne : b ≠ []) :
    monthsIdx mkt b = tailN 12 (dedupSorted M) := by
  rw [monthsIdx, monthsAll_eq mkt hM hb hbne]

theorem idxM_sorted (M : List ℕ) :
    ((tailN 12 (dedupSorted M)).map monthStamp).Sorted (· < ·) := by
  refine List.Pairwise.map _ (fun a b h => monthStamp_lt_monthStamp h) ?_
  exact List.Pairwise.sublist (tailN_sublist _ _) (sorted_dedupSorted M)

theorem idxM_ne_nil {M : List ℕ} (h : M ≠ []) :
    ((tailN 12 (dedupSorted M)).map monthStamp) ≠ [] := by
  have := tailN_ne_nil (show (0 : ℕ) < 12 by norm_num) (dedupSorted_ne_nil h)
  simpa using this

/-! ## Batching -/

theorem chunksAux_flat : ∀ (n : ℕ) (l : List Symbol), l.length ≤ n →
    flatAll (chunksAux n l) = l := by
  intro n
  induction n with
  | zero =>
    intro l h
    cases l with
    | nil => rfl
    | cons x xs => simp at h
  | succ n ih =>
    intro l h
    cases l with
    | nil => rfl
    | cons x xs =>
      have hstep : flatAll (chunksAux (n + 1) (x :: xs))
          = (x :: xs).take 20 ++ flatAll (chunksAux n ((x :: xs).drop 20)) := rfl
      have hlen : ((x :: xs).drop 20).length ≤ n := by
        rw [List.length_drop]
        have hl := h
        rw [List.length_cons] at hl
        omega
      rw [hstep, ih _ hlen, List.take_append_drop]

theorem chunks20_flat (l : List Symbol) : flatAll (chunks20 l) = l :=
  chunksAux_flat l.length l le_rfl

theorem chunksAux_ne_nil : ∀ (n : ℕ) (l : List Symbol), ∀ b ∈ chunksAux n l, b ≠ [] := by
  intro n
  induction n with
  | zero => intro l b hb; simp [chunksAux] at hb
  | succ n ih =>
    intro l b hb
    cases l with
    | nil => simp [chunksAux] at hb
    | cons x xs =>
      rcases List.mem_cons.mp hb with rfl | hb
      · simp
      · exact ih _ b hb

theorem chunks20_ne_nil (l : List Symbol) : ∀ b ∈ chunks20 l, b ≠ [] :=
  chunksAux_ne_nil l.length l

theorem chunks20_subset (l : List Symbol) : ∀ b ∈ chunks20 l, ∀ s ∈ b, s ∈ l := by
  intro b hb s hs
  have : s ∈ flatAll (chunks20 l) := mem_flatAll.mpr ⟨b, hb, hs⟩
  rwa [chunks20_flat] at this

/-! ## The batch fold of fetch_adj -/

/-- Invariant of the batch fold once a first successful batch has been
merged: the index is pinned to the canonical 12-month window, the
columns are the already-merged symbols, and every cell is the
symbol's own monthly bucket. -/
theorem fetch_fold_go (mkt : Market) (fails : List Symbol → Bool) {syms : List Symbol}
    {M : List ℕ}
    (hM : ∀ s ∈ syms, ∀ m, m ∈ (datesOf mkt s).map monthOf ↔ m ∈ M) (hMne : M ≠ []) :
    ∀ (bs : List (List Symbol)) (cs : List Symbol) (acc : Table),
      (∀ b ∈ bs, b ≠ []) → (∀ b ∈ bs, ∀ s ∈ b, s ∈ syms) →
      cs ≠ [] →
      acc.index = (tailN 12 (dedupSorted M)).map monthStamp →
      acc.cols = cs →
      (∀ t s, acc.cell t s =
        if s ∈ cs ∧ t ∈ (tailN 12 (dedupSorted M)).map monthStamp
        then bucketOwn mkt s (monthOf t) else none) →
      (bs.foldl (fetchStep mkt fails) acc).index
          = (tailN 12 (dedupSorted M)).map monthStamp
      ∧ (bs.foldl (fetchStep mkt fails) acc).cols
          = cs ++ flatAll (bs.filter (fun b => !fails b))
      ∧ (∀ t s, (bs.foldl (fetchStep mkt fails) acc).cell t s =
          if s ∈ cs ++ flatAll (bs.filter (fun b => !fails b))
              ∧ t ∈ (tailN 12 (dedupSorted M)).map monthStamp
          then bucketOwn mkt s (monthOf t) else none) := by
  intro bs
  induction bs with
  | nil =>
    intro cs acc _ _ _ hidx hcols hcell
    refine ⟨hidx, ?_, ?_⟩
    · simpa [flatAll] using hcols
    · intro t s
      simpa [flatAll] using hcell t s
  | cons b rest ih =>
    intro cs acc hne hsub hcs hidx hcols hcell
    rw [List.foldl_cons]
    cases hf : fails b with
    | true =>
      have hstep : fetchStep mkt fails acc b = acc := by
        rw [fetchStep, if_pos hf]
      rw [hstep]
      have h := ih cs acc (fun x hx => hne x (List.mem_cons_of_mem _ hx))
        (fun x hx => hsub x (List.mem_cons_of_mem _ hx)) hcs hidx hcols hcell
      have hfilter : (b :: rest).filter (fun x => !fails x)
          = rest.filter (fun x => !fails x) := by
        rw [List.filter_cons, if_neg (by simp [hf])]
      rw [hfilter]
      exact h
    | false =>
      have hbne : b ≠ [] := hne b (List.mem_cons_self _ _)
      have hbsub : ∀ s ∈ b, s ∈ syms := hsub b (List.mem_cons_self _ _)
      have hidxne : acc.index ≠ [] := by rw [hidx]; exact idxM_ne_nil hMne
      have hnotempty : acc.isEmptyT = false := by
        rw [Table.isEmptyT, Bool.or_eq_false_iff]
        constructor
        · simpa [List.isEmpty_iff] using hidxne
        · simpa [List.isEmpty_iff, hcols] using hcs
      have hnormidx : (normBatch mkt b).index
          = (tailN 12 (dedupSorted M)).map monthStamp := by
        show (monthsIdx mkt b).map monthStamp = _
        rw [monthsIdx_eq mkt hM hbsub hbne]
      have hstep : fetchStep mkt fails acc b = acc.join (normBatch mkt b) := by
        rw [fetchStep, if_neg (by simp [hf]), if_neg (by simp [hnotempty])]
      have hsorted : ((tailN 12 (dedupSorted M)).map monthStamp).Sorted (· < ·) :=
        idxM_sorted M
      have hjidx : (acc.join (normBatch mkt b)).index
          = (tailN 12 (dedupSorted M)).map monthStamp := by
        show dedupSorted (acc.index ++ (normBatch mkt b).index) = _
        rw [hidx, hnormidx]
        exact dedupSorted_append_self hsorted
      have hjcols : (acc.join (normBatch mkt b)).cols = cs ++ b := by
        show acc.cols ++ (normBatch mkt b).cols = cs ++ b
        rw [hcols]
        rfl
      have hjcell : ∀ t s, (acc.join (normBatch mkt b)).cell t s =
          if s ∈ cs ++ b ∧ t ∈ (tailN 12 (dedupSorted M)).map monthStamp
          then bucketOwn mkt s (monthOf t) else none := by
        intro t s
        show (if s ∈ acc.cols then (if t ∈ acc.index then acc.cell t s else none)
              else (if t ∈ (normBatch mkt b).index then (normBatch mkt b).cell t s else none))
            = _
        rw [hcols, hidx, hnormidx]
        by_cases hs : s ∈ cs
        · rw [if_pos hs]
          by_cases ht : t ∈ (tailN 12 (dedupSorted M)).map monthStamp
          · rw [if_pos ht, hcell t s, if_pos ⟨hs, ht⟩,
              if_pos ⟨List.mem_append.mpr (Or.inl hs), ht⟩]
          · rw [if_neg ht, if_neg (fun hc => ht hc.2)]
        · rw [if_neg hs]
          by_cases ht : t ∈ (tailN 12 (dedupSorted M)).map monthStamp
          · rw [if_pos ht]
            show (if t ∈ (monthsIdx mkt b).map monthStamp ∧ s ∈ b
                  then bucketCell mkt b s (monthOf t) else none) = _
            rw [monthsIdx_eq mkt hM hbsub hbne]
            by_cases hsb : s ∈ b
            · rw [if_pos ⟨ht, hsb⟩, if_pos ⟨List.mem_append.mpr (Or.inr hsb), ht⟩,
                bucketCell_eq_bucketOwn mkt hsb]
            · rw [if_neg (fun hc => hsb hc.2), if_neg ?_]
              rintro ⟨hmem, _⟩
              rcases List.mem_append.mp hmem with h | h
              · exact hs h
              · exact hsb h
          · rw [if_neg ht, if_neg (fun hc => ht hc.2)]
      have h := ih (cs ++ b) (acc.join (normBatch mkt b))
        (fun x hx => hne x (List.mem_cons_of_mem _ hx))
        (fun x hx => hsub x (List.mem_cons_of_mem _ hx))
        (by simpa using fun hcontra => hcs (List.append_eq_nil.mp hcontra).1)
        hjidx hjcols hjcell
      rw [hstep]
      have hfilter : (b :: rest).filter (fun x => !fails x)
          = b :: rest.filter (fun x => !fails x) := by
        rw [List.filter_cons, if_pos (by simp [hf])]
      rw [hfilter]
      have hflat : flatAll (b :: rest.filter (fun x => !fails x))
          = b ++ flatAll (rest.filter (fun x => !fails x)) := rfl
      rw [hflat]
      refine ⟨h.1, ?_, ?_⟩
      · rw [h.2.1, List.append_assoc]
      · intro t s
        rw [h.2.2 t s, List.append_assoc]

/-- The batch fold from the initial empty frame: as soon as one batch
succeeds, the result is the canonical window with the successful
batches' symbols as columns and own-series buckets as cells. -/
theorem fetch_fold_start (mkt : Market) (fails : List Symbol → Bool) {syms : List Symbol}
    {M : List ℕ}
    (hM : ∀ s ∈ syms, ∀ m, m ∈ (datesOf mkt s).map monthOf ↔ m ∈ M) (hMne : M ≠ []) :
    ∀ bs : List (List Symbol),
      (∀ b ∈ bs, b ≠ []) → (∀ b ∈ bs, ∀ s ∈ b, s ∈ syms) →
      (∃ b ∈ bs, fails b = false) →
      (bs.foldl (fetchStep mkt fails) Table.emptyT).index
          = (tailN 12 (dedupSorted M)).map monthStamp
      ∧ (bs.foldl (fetchStep mkt fails) Table.emptyT).cols
          = flatAll (bs.filter (fun b => !fails b))
      ∧ (∀ t s, (bs.foldl (fetchStep mkt fails) Table.emptyT).cell t s =
          if s ∈ flatAll (bs.filter (fun b => !fails b))
              ∧ t ∈ (tailN 12 (dedupSorted M)).map monthStamp
          then bucketOwn mkt s (monthOf t) else none) := by
  intro bs
  induction bs with
  | nil =>
    rintro _ _ ⟨b, hb, _⟩
    exact absurd hb (by simp)
  | cons b rest ih =>
    intro hne hsub hsucc
    rw [List.foldl_cons]
    cases hf : fails b with
    | true =>
      have hstep : fetchStep mkt fails Table.emptyT b = Table.emptyT := by
        rw [fetchStep, if_pos hf]
      rw [hstep]
      have hsucc2 : ∃ x ∈ rest, fails x = false := by
        obtain ⟨x, hx, hfx⟩ := hsucc
        rcases List.mem_cons.mp hx with rfl | hx
        · rw [hf] at hfx; exact absurd hfx (by simp)
        · exact ⟨x, hx, hfx⟩
      have h := ih (fun x hx => hne x (List.mem_cons_of_mem _ hx))
        (fun x hx => hsub x (List.mem_cons_of_mem _ hx)) hsucc2
      have hfilter : (b :: rest).filter (fun x => !fails x)
          = rest.filter (fun x => !fails x) := by
        rw [List.filter_cons, if_neg (by simp [hf])]
      rw [hfilter]
      exact h
    | false =>
      have hbne : b ≠ [] := hne b (List.mem_cons_self _ _)
      have hbsub : ∀ s ∈ b, s ∈ syms := hsub b (List.mem_cons_self _ _)
      have hstep : fetchStep mkt fails Table.emptyT b = normBatch mkt b := by
        rw [fetchStep, if_neg (by simp [hf]), if_pos (by rfl)]
      rw [hstep]
      have hnormidx : (normBatch mkt b).index
          = (tailN 12 (dedupSorted M)).map monthStamp := by
        show (monthsIdx mkt b).map monthStamp = _
        rw [monthsIdx_eq mkt hM hbsub hbne]
      have hnormcell : ∀ t s, (normBatch mkt b).cell t s =
          if s ∈ b ∧ t ∈ (tailN 12 (dedupSorted M)).map monthStamp
          then bucketOwn mkt s (monthOf t) else none := by
        intro t s
        show (if t ∈ (monthsIdx mkt b).map monthStamp ∧ s ∈ b
              then bucketCell mkt b s (monthOf t) else none) = _
        rw [monthsIdx_eq mkt hM hbsub hbne]
        by_cases hsb : s ∈ b
        · by_cases ht : t ∈ (tailN 12 (dedupSorted M)).map monthStamp
          · rw [if_pos ⟨ht, hsb⟩, if_pos ⟨hsb, ht⟩, bucketCell_eq_bucketOwn mkt hsb]
          · rw [if_neg (fun hc => ht hc.1), if_neg (fun hc => ht hc.2)]
        · rw [if_neg (fun hc => hsb hc.2), if_neg (fun hc => hsb hc.1)]
      have h := fetch_fold_go mkt fails hM hMne rest b (normBatch mkt b)
        (fun x hx => hne x (List.mem_cons_of_mem _ hx))
        (fun x hx => hsub x (List.mem_cons_of_mem _ hx))
        hbne hnormidx rfl hnormcell
      have hfilter : (b :: rest).filter (fun x => !fails x)
          = b :: rest.filter (fun x => !fails x) := by
        rw [List.filter_cons, if_pos (by simp [hf])]
      rw [hfilter]
      have hflat : flatAll (b :: rest.filter (fun x => !fails x))
          = b ++ flatAll (rest.filter (fun x => !fails x)) := rfl
      rw [hflat]
      exact h

/-! ## Claims C3 and C7 -/

/-- C3 as stated is false: normalization trims to the most recent 12
months *per batch* (line 193), so when the second batch covers months
2..13 while the first batch only covers month 0, the batched-and-merged
table keeps month 0, which the all-at-once fetch (13 global buckets,
then tail(12)) would trim.  Both batches succeed here, so no column is
missing. -/
theorem claim_C3_counterexample :
    ¬ Table.Eqv (fetch_adj ceMarket (fun _ => false) ceSyms)
      ((normBatch ceMarket ceSyms).restrict
        (fun s => decide (s ∈ successCols (fun _ => false) ceSyms))) := by
  intro h
  have hidx : (fetch_adj ceMarket (fun _ => false) ceSyms).index
      = (normBatch ceMarket ceSyms).index := h.1
  exact absurd hidx (by decide)

/-- C3 (amended): provided the symbol list has no duplicates, every
symbol's series covers the same (nonempty) set of observation months,
and at least one batch succeeds, fetching in batches of 20, normalizing
each batch and outer-joining produces the same unified table (same row
set, same column set, same cell values) as the all-at-once
fetch-and-normalize of all symbols with the failed batches' columns
dropped. -/
theorem claim_C3 (mkt : Market) (fails : List Symbol → Bool) (syms : List Symbol) (M : List ℕ)
    (hnd : syms.Nodup)
    (hM : ∀ s ∈ syms, ∀ m, m ∈ (datesOf mkt s).map monthOf ↔ m ∈ M)
    (hMne : M ≠ [])
    (hsucc : ∃ b ∈ chunks20 syms, fails b = false) :
    Table.Eqv (fetch_adj mkt fails syms)
      ((normBatch mkt syms).restrict (fun s => decide (s ∈ successCols fails syms))) := by
  have hsymsne : syms ≠ [] := by
    rintro rfl
    obtain ⟨b, hb, _⟩ := hsucc
    simp [chunks20, chunksAux] at hb
  have h := fetch_fold_start mkt fails hM hMne (chunks20 syms)
    (chunks20_ne_nil syms) (chunks20_subset syms) hsucc
  have hglobidx : (normBatch mkt syms).index
      = (tailN 12 (dedupSorted M)).map monthStamp := by
    show (monthsIdx mkt syms).map monthStamp = _
    rw [monthsIdx_eq mkt hM (fun _ hs => hs) hsymsne]
  have hscsub : (successCols fails syms).Sublist syms := by
    have h1 := flatAll_filter_sublist (fun b => !fails b) (chunks20 syms)
    rw [chunks20_flat] at h1
    exact h1
  have hscnd : (successCols fails syms).Nodup := List.Nodup.sublist hscsub hnd
  refine ⟨?_, ?_, ?_⟩
  · show (fetch_adj mkt fails syms).index = (normBatch mkt syms).index
    rw [hglobidx]
    exact h.1
  · show (fetch_adj mkt fails syms).cols.Perm
      (((normBatch mkt syms).cols).filter (fun s => decide (s ∈ successCols fails syms)))
    have hcols : (fetch_adj mkt fails syms).cols = successCols fails syms := h.2.1
    rw [hcols]
    show (successCols fails syms).Perm
      (syms.filter (fun s => decide (s ∈ successCols fails syms)))
    refine (List.perm_ext_iff_of_nodup hscnd (List.Nodup.filter _ hnd)).mpr ?_
    intro s
    rw [List.mem_filter, decide_eq_true_eq]
    exact ⟨fun hs => ⟨hscsub.subset hs, hs⟩, fun hs => hs.2⟩
  · intro t ht s
    have hcell : (fetch_adj mkt fails syms).cell t s
        = if s ∈ flatAll (List.filter (fun b => !fails b) (chunks20 syms))
              ∧ t ∈ List.map monthStamp (tailN 12 (dedupSorted M))
          then bucketOwn mkt s (monthOf t) else none := h.2.2 t s
    show (fetch_adj mkt fails syms).cell t s
        = if decide (s ∈ successCols fails syms) = true
          then (normBatch mkt syms).cell t s else none
    have htidx : t ∈ (tailN 12 (dedupSorted M)).map monthStamp := by
      have h1 : (fetch_adj mkt fails syms).index
          = (tailN 12 (dedupSorted M)).map monthStamp := h.1
      rwa [h1] at ht
    by_cases hs : s ∈ successCols fails syms
    · rw [if_pos (decide_eq_true_eq.mpr hs)]
      have hssyms : s ∈ syms := hscsub.subset hs
      have hnb : (normBatch mkt syms).cell t s = bucketOwn mkt s (monthOf t) := by
        show (if t ∈ (monthsIdx mkt syms).map monthStamp ∧ s ∈ syms
              then bucketCell mkt syms s (monthOf t) else none) = _
        rw [monthsIdx_eq mkt hM (fun _ hx => hx) hsymsne,
          if_pos ⟨htidx, hssyms⟩, bucketCell_eq_bucketOwn mkt hssyms]
      rw [hnb, hcell, if_pos ⟨hs, htidx⟩]
    · rw [if_neg (by simpa using hs), hcell, if_neg (fun hc => hs hc.1)]

/-- Witness for C3 at a concrete input: one symbol, one batch, no
failures, all series covering exactly month 0. -/
theorem claim_C3_witness :
    Table.Eqv (fetch_adj mktOneObs (fun _ => false) ["A"])
      ((normBatch mktOneObs ["A"]).restrict
        (fun s => decide (s ∈ successCols (fun _ => false) ["A"]))) :=
  claim_C3 mktOneObs (fun _ => false) ["A"] [0]
    (by decide)
    (fun _ _ _ => Iff.rfl)
    (by decide)
    ⟨["A"], by decide, rfl⟩

/-- Normalization only looks at a market through `stripTz`: the
timezone tags cannot influence the normalized table. -/
theorem normBatch_tz (mkt mkt2 : Market) (syms : List Symbol)
    (h : ∀ s, stripTz (mkt s) = stripTz (mkt2 s)) :
    normBatch mkt syms = normBatch mkt2 syms := by
  have hdates : ∀ s, datesOf mkt s = datesOf mkt2 s := by
    intro s; rw [datesOf, h s, datesOf]
  have halig : alignedDates mkt syms = alignedDates mkt2 syms := by
    rw [alignedDates, alignedDates]
    congr 1
    exact congrArg flatAll (List.map_congr_left (fun s _ => hdates s))
  have hidx : monthsIdx mkt syms = monthsIdx mkt2 syms := by
    show tailN 12 (dedupSorted ((alignedDates mkt syms).map monthOf))
        = tailN 12 (dedupSorted ((alignedDates mkt2 syms).map monthOf))
    rw [halig]
  have hbucket : ∀ s m, bucketCell mkt syms s m = bucketCell mkt2 syms s m := by
    intro s m
    rw [bucketCell, bucketCell, halig, h s]
  refine Table.ext ?_ ?_ ?_
  · show (monthsIdx mkt syms).map monthStamp = (monthsIdx mkt2 syms).map monthStamp
    rw [hidx]
  · rfl
  · funext t s
    show (if t ∈ (monthsIdx mkt syms).map monthStamp ∧ s ∈ syms
          then bucketCell mkt syms s (monthOf t) else none)
        = (if t ∈ (monthsIdx mkt2 syms).map monthStamp ∧ s ∈ syms
          then bucketCell mkt2 syms s (monthOf t) else none)
    simp only [hidx, hbucket]

/-- C7 as stated is false on the stamping: a single observation on
day 5 of month 0 is re-stamped at the month-*start* timestamp (day 1),
because `to_period("M").to_timestamp("M")` converts periods at the
default `how="start"`, not at month-end. -/
theorem claim_C7_counterexample :
    (normBatch mktOneObs ["A"]).index = [monthStamp 0]
    ∧ ¬ (∀ t ∈ (normBatch mktOneObs ["A"]).index, t = monthEndStamp (monthOf t)) := by
  refine ⟨by decide, fun hall => ?_⟩
  have h := hall (monthStamp 0) (by decide)
  exact absurd h (by decide)

/-- C7 (amended): for every fetched batch, normalization strips the
timezone from the time index (the result is invariant under timezone
tags), collapses each calendar month to the last observation of that
month — the last non-null own-series value, `bucketOwn` — stamped at
the month-*start* timestamp, sorts the rows ascending, and retains the
12 most recent buckets: the index is strictly increasing, of length at
most 12, and consists of month-start stamps. -/
theorem claim_C7 (mkt : Market) (syms : List Symbol) :
    (normBatch mkt syms).index.Sorted (· < ·)
    ∧ (normBatch mkt syms).index.length ≤ 12
    ∧ (∀ t ∈ (normBatch mkt syms).index, t = monthStamp (monthOf t))
    ∧ (normBatch mkt syms).index = (tailN 12 (monthsAll mkt syms)).map monthStamp
    ∧ (∀ mkt2 : Market, (∀ s, stripTz (mkt s) = stripTz (mkt2 s)) →
        normBatch mkt syms = normBatch mkt2 syms)
    ∧ (∀ m s, m ∈ monthsIdx mkt syms → s ∈ syms →
        (normBatch mkt syms).cell (monthStamp m) s = bucketOwn mkt s m) := by
  refine ⟨?_, ?_, ?_, rfl, fun mkt2 h => normBatch_tz mkt mkt2 syms h, ?_⟩
  · show ((monthsIdx mkt syms).map monthStamp).Sorted (· < ·)
    refine List.Pairwise.map _ (fun a b hab => monthStamp_lt_monthStamp hab) ?_
    exact List.Pairwise.sublist (tailN_sublist _ _) (sorted_dedupSorted _)
  · show ((monthsIdx mkt syms).map monthStamp).length ≤ 12
    rw [List.length_map]
    exact tailN_length_le _ _
  · intro t ht
    obtain ⟨m, _, rfl⟩ := List.mem_map.mp ht
    rw [monthOf_monthStamp]
  · intro m s hm hs
    show (if monthStamp m ∈ (monthsIdx mkt syms).map monthStamp ∧ s ∈ syms
          then bucketCell mkt syms s (monthOf (monthStamp m)) else none) = _
    rw [if_pos ⟨List.mem_map_of_mem _ hm, hs⟩, monthOf_monthStamp,
      bucketCell_eq_bucketOwn mkt hs]

/-- Witness for C7 at the one-observation market. -/
theorem claim_C7_witness :
    0 ∈ monthsIdx mktOneObs ["A"] ∧ ("A" : Symbol) ∈ (["A"] : List Symbol)
    ∧ (normBatch mktOneObs ["A"]).cell (monthStamp 0) "A" = bucketOwn mktOneObs "A" 0 :=
  ⟨by decide, by decide, (claim_C7 mktOneObs ["A"]).2.2.2.2.2 0 "A" (by decide) (by decide)⟩

/-! ## Lemmas about the retry loop -/

theorem loadAux_attemptsMade_le (op : ℕ → Except String Unit) (n made : ℕ)
    (lastErr : Option String) :
    (loadAux op n made lastErr).attemptsMade ≤ made + n := by
  induction n generalizing made lastErr with
  | zero => simp [loadAux]
  | succ n ih =>
    rw [loadAux]
    cases op made with
    | ok _ => simp
    | error e =>
      have := ih (made + 1) (some e)
      simpa [Nat.add_assoc, Nat.add_comm 1 n] using this

theorem loadAux_sleeps_fixed (op : ℕ → Except String Unit) (n made : ℕ)
    (lastErr : Option String) :
    ∀ d ∈ (loadAux op n made lastErr).sleeps, d = retryDelay := by
  induction n generalizing made lastErr with
  | zero => simp [loadAux]
  | succ n ih =>
    rw [loadAux]
    cases op made with
    | ok _ => simp
    | error e =>
      intro d hd
      rcases List.mem_cons.mp hd with rfl | hd
      · rfl
      · exact ih (made + 1) (some e) d hd

theorem loadAux_all_fail (op : ℕ → Except String Unit) (er : ℕ → String)
    (hop : ∀ i, op i = Except.error (er i)) :
    ∀ n made lastErr, 0 < n →
      (loadAux op n made lastErr).result = false
      ∧ (loadAux op n made lastErr).logged = [er (made + n - 1)]
      ∧ (loadAux op n made lastErr).attemptsMade = made + n := by
  intro n
  induction n with
  | zero => intro made lastErr h; exact absurd h (by simp)
  | succ n ih =>
    intro made lastErr _
    rw [loadAux, hop made]
    rcases Nat.eq_zero_or_pos n with rfl | hn
    · simp [loadAux]
    · have h := ih (made + 1) (some (er made)) hn
      refine ⟨h.1, ?_, ?_⟩
      · have : made + 1 + n - 1 = made + (n + 1) - 1 := by omega
        simpa [this] using h.2.1
      · have : made + 1 + n = made + (n + 1) := by omega
        simpa [this] using h.2.2

/-! ## Claims C4, C5, C8 -/

/-- C4: the final ranked list — accumulated through page 1, page 2 and
the consolidated fallback, then `drop_duplicates().head(50)` — never
contains a (symbol, name) pair twice and never exceeds 50 entries,
whatever the three page contents are. -/
theorem claim_C4 (page1 page2 : List Entry) (consolidated : Option (List Entry)) :
    (acquireList page1 page2 consolidated).Nodup
    ∧ (acquireList page1 page2 consolidated).length ≤ 50 := by
  constructor
  · exact List.Nodup.sublist (List.take_sublist _ _) (dedupFirst_nodup _)
  · exact List.length_take_le _ _

/-- C5: when fewer than 50 entries are accumulated and the consolidated
page loads, its rows are deduplicated stably with the first occurrence
winning, and the accumulated list is replaced exactly when the
deduplicated consolidated rows are at least as many as the accumulated
entries; on a failed consolidated load, or when the count is smaller,
the accumulated list is unchanged. -/
theorem claim_C5 (data rows : List Entry) (hbelow : data.length < 50) :
    (dedupFirst rows).Nodup
    ∧ (dedupFirst rows).Sublist rows
    ∧ (∀ e, e ∈ dedupFirst rows ↔ e ∈ rows)
    ∧ (∀ a t, dedupFirst (a :: t) = a :: dedupFirst (t.filter (fun x => x ≠ a)))
    ∧ fallbackStep data (some rows)
        = (if data.length ≤ (dedupFirst rows).length then consolidatedUnique rows else data)
    ∧ fallbackStep data none = data := by
  refine ⟨dedupFirst_nodup rows, dedupFirst_sublist rows, fun e => mem_dedupFirst,
    dedupFirst_cons, ?_, ?_⟩
  · have hcond : (data.length ≤ (consolidatedUnique rows).length)
        ↔ (data.length ≤ (dedupFirst rows).length) := by
      rw [consolidatedUnique, List.length_take, Nat.le_min]
      exact ⟨fun h => h.2, fun h => ⟨Nat.le_of_lt hbelow, h⟩⟩
    rw [fallbackStep, if_pos hbelow]
    by_cases h : data.length ≤ (dedupFirst rows).length
    · rw [if_pos (hcond.mpr h), if_pos h]
    · rw [if_neg (fun hc => h (hcond.mp hc)), if_neg h]
  · rw [fallbackStep, if_pos hbelow]

/-- Witness for C5 at a concrete input: one accumulated entry, a
consolidated page with an internal duplicate. -/
theorem claim_C5_witness :
    ([(("A", "a"))] : List Entry).length < 50
    ∧ fallbackStep [("A", "a")] (some [("B", "b"), ("B", "b"), ("C", "c")])
        = (if ([(("A", "a"))] : List Entry).length
              ≤ (dedupFirst [("B", "b"), ("B", "b"), ("C", "c")]).length
           then consolidatedUnique [("B", "b"), ("B", "b"), ("C", "c")]
           else [("A", "a")]) :=
  ⟨by decide, (claim_C5 [("A", "a")] [("B", "b"), ("B", "b"), ("C", "c")] (by decide)).2.2.2.2.1⟩

/-- C8 as stated is false: the loop only remembers `last_err`, so after
exhausting all attempts it logs the cause of the *last* failed attempt
only.  Attempt 0 of this concrete run failed with "bad handshake", yet
that cause is never logged. -/
theorem claim_C8_counterexample :
    opThreeFailures 0 = Except.error "bad handshake"
    ∧ "bad handshake" ∉ (load_with_retry opThreeFailures 3).logged := by
  constructor
  · rfl
  · decide

/-- C8 (amended): the loader makes at most `tries` attempts, every
delay between attempts is the fixed `retryDelay`, and when every
attempt fails it returns the failure result `false` to the caller after
making exactly `tries` attempts, logging only the cause of the last
failed attempt. -/
theorem claim_C8 (op : ℕ → Except String Unit) (tries : ℕ) (er : ℕ → String) :
    (load_with_retry op tries).attemptsMade ≤ tries
    ∧ (∀ d ∈ (load_with_retry op tries).sleeps, d = retryDelay)
    ∧ (0 < tries → (∀ i, op i = Except.error (er i)) →
        (load_with_retry op tries).result = false
        ∧ (load_with_retry op tries).logged = [er (tries - 1)]
        ∧ (load_with_retry op tries).attemptsMade = tries) := by
  refine ⟨?_, loadAux_sleeps_fixed op tries 0 none, ?_⟩
  · simpa using loadAux_attemptsMade_le op tries 0 none
  · intro htries hop
    have h := loadAux_all_fail op er hop tries 0 none htries
    simpa using h

/-- Witness for C8 at the concrete three-failure run. -/
theorem claim_C8_witness :
    (0 < 3)
    ∧ (load_with_retry opThreeFailures 3).result = false
    ∧ (load_with_retry opThreeFailures 3).logged = ["timeout B"] := by
  have h := (claim_C8 opThreeFailures 3 errThreeFailures).2.2 (by decide) (fun i => rfl)
  exact ⟨by decide, h.1, h.2.1⟩

/-! ## The list computations of the calculator versus the indexed
formulas of the spec -/

theorem prodOnePlus_eq_finset (l : List (Option ℝ)) :
    prodOnePlus l
      = ∏ j ∈ (Finset.range l.length).filter (fun j => (l.getD j none).isSome),
          (1 + (l.getD j none).getD 0) := by
  induction l with
  | nil => simp [prodOnePlus, somes]
  | cons a t ih =>
    rw [Finset.prod_filter, List.length_cons, Finset.prod_range_succ']
    have hstep : ∀ j : ℕ, (a :: t).getD (j + 1) none = t.getD j none := fun _ => rfl
    simp only [hstep]
    rw [← Finset.prod_filter]
    cases a with
    | none =>
      have hzero : (List.getD (none :: t) 0 none) = none := rfl
      rw [hzero]
      have hone : prodOnePlus (none :: t) = prodOnePlus t := by
        simp [prodOnePlus, somes]
      rw [hone, ih]
      simp
    | some v =>
      have hzero : (List.getD (some v :: t) 0 none) = some v := rfl
      rw [hzero]
      have hone : prodOnePlus (some v :: t) = (1 + v) * prodOnePlus t := by
        simp [prodOnePlus, somes]
      rw [hone, ih]
      simp [mul_comm]

theorem countN_eq_finset (l : List (Option ℝ)) :
    countN l
      = ((Finset.range l.length).filter (fun j => (l.getD j none).isSome)).card := by
  induction l with
  | nil => simp [countN, somes]
  | cons a t ih =>
    rw [Finset.card_filter, List.length_cons, Finset.sum_range_succ']
    have hstep : ∀ j : ℕ, (a :: t).getD (j + 1) none = t.getD j none := fun _ => rfl
    simp only [hstep]
    rw [← Finset.card_filter]
    cases a with
    | none =>
      have hone : countN (none :: t) = countN t := by simp [countN, somes]
      rw [hone, ih]
      simp
    | some v =>
      have hone : countN (some v :: t) = countN t + 1 := by simp [countN, somes]
      rw [hone, ih]
      simp

theorem exists_seven (l : List ℕ) (h : 7 ≤ l.length) :
    ∃ a0 a1 a2 a3 a4 a5 a6 rest,
      l = a0 :: a1 :: a2 :: a3 :: a4 :: a5 :: a6 :: rest := by
  rcases l with _ | ⟨a0, l⟩
  · simp only [List.length_nil] at h; omega
  rcases l with _ | ⟨a1, l⟩
  · simp only [List.length_cons, List.length_nil] at h; omega
  rcases l with _ | ⟨a2, l⟩
  · simp only [List.length_cons, List.length_nil] at h; omega
  rcases l with _ | ⟨a3, l⟩
  · simp only [List.length_cons, List.length_nil] at h; omega
  rcases l with _ | ⟨a4, l⟩
  · simp only [List.length_cons, List.length_nil] at h; omega
  rcases l with _ | ⟨a5, l⟩
  · simp only [List.length_cons, List.length_nil] at h; omega
  rcases l with _ | ⟨a6, l⟩
  · simp only [List.length_cons, List.length_nil] at h; omega
  exact ⟨a0, a1, a2, a3, a4, a5, a6, l, rfl⟩

/-- With at least 7 rows, the zip-of-consecutive-rows computation of
the code gives exactly the six position-indexed returns. -/
theorem retFirst6_eq (p : Table) (s : Symbol) (h7 : 7 ≤ p.index.length) :
    retFirst6 p s = (List.range 6).map (retAt p s) := by
  obtain ⟨a0, a1, a2, a3, a4, a5, a6, rest, hidx⟩ := exists_seven p.index h7
  have hr : (List.range 6).map (retAt p s)
      = [retAt p s 0, retAt p s 1, retAt p s 2, retAt p s 3, retAt p s 4, retAt p s 5] := rfl
  rw [hr]
  simp only [retFirst6, firstWindowPairs, retAt, hidx]
  rfl

/-! ## Claims C1 and C2 -/

/-- C1: for every symbol, the geometric mean monthly return computed
from the first 7 rows of the price table equals
`product(1+r_i)^(1/n) - 1` where both the product and `n` range over
that symbol's non-missing returns of the window; and on the spec's
example returns it equals
`(1.10*0.95*1.02*1.00*1.03*0.99)^(1/6) - 1`. -/
theorem claim_C1 (p : Table) (s : Symbol) (h7 : 7 ≤ p.index.length) :
    mean_geom_first6m p s = specGeomFormula p s
    ∧ meanGeomOf exampleRets
        = (1.10 * 0.95 * 1.02 * 1.00 * 1.03 * 0.99 : ℝ) ^ ((1 : ℝ) / 6) - 1 := by
  constructor
  · rw [mean_geom_first6m, meanGeomOf, specGeomFormula, retFirst6_eq p s h7]
    have hl : ((List.range 6).map (retAt p s)).length = 6 := by simp
    rw [prodOnePlus_eq_finset, countN_eq_finset, hl]
    have hgetD : ∀ j < 6, ((List.range 6).map (retAt p s)).getD j none = retAt p s j := by
      intro j hj
      rw [List.getD_eq_getElem _ _ (by simpa using hj), List.getElem_map, List.getElem_range]
    have hfilter : (Finset.range 6).filter
          (fun j => (((List.range 6).map (retAt p s)).getD j none).isSome)
        = (Finset.range 6).filter (fun j => (retAt p s j).isSome) := by
      refine Finset.filter_congr ?_
      intro j hj
      rw [hgetD j (Finset.mem_range.mp hj)]
    rw [hfilter]
    have hprod : ∏ j ∈ (Finset.range 6).filter (fun j => (retAt p s j).isSome),
          (1 + (((List.range 6).map (retAt p s)).getD j none).getD 0)
        = ∏ j ∈ (Finset.range 6).filter (fun j => (retAt p s j).isSome),
          (1 + (retAt p s j).getD 0) := by
      refine Finset.prod_congr rfl ?_
      intro j hj
      rw [hgetD j (Finset.mem_range.mp (Finset.mem_filter.mp hj).1)]
    rw [hprod]
  · have hbase : prodOnePlus exampleRets
        = (1.10 * 0.95 * 1.02 * 1.00 * 1.03 * 0.99 : ℝ) := by
      simp [prodOnePlus, somes, exampleRets]
      norm_num
    have hcount : countN exampleRets = 6 := by
      simp [countN, somes, exampleRets]
    rw [meanGeomOf, hbase, hcount]
    norm_num

/-- Witness for C1 at a concrete 7-row table. -/
theorem claim_C1_witness :
    7 ≤ tbl7.index.length
    ∧ mean_geom_first6m tbl7 "A" = specGeomFormula tbl7 "A" :=
  ⟨by decide, (claim_C1 tbl7 "A" (by decide)).1⟩

/-- C2 as stated is false on the reporting: the `ValueError` message of
line 230 names the required count (7 points) but not the available row
count — for this 5-row table the digit 5 does not occur anywhere in
the report. -/
theorem claim_C2_counterexample :
    tbl5.index.length = 5
    ∧ runCalc tbl5 = Except.error insufficientMsg
    ∧ ('5' ∉ insufficientMsg.toList) := by
  refine ⟨rfl, rfl, by decide⟩

/-- C2 (amended): with fewer than 7 rows the calculator raises the
insufficient-history error before any return is computed (no score
records are produced), the run exits with code 1, and the report
states the required count (the digit 7 occurs in it) — though not the
available count; with 7 or more rows no such error is raised. -/
theorem claim_C2 (p : Table) :
    (p.index.length < 7 →
      runCalc p = Except.error insufficientMsg
      ∧ exitCodeOf (runCalc p) = 1
      ∧ '7' ∈ insufficientMsg.toList)
    ∧ (7 ≤ p.index.length → ∃ recs, runCalc p = Except.ok recs) := by
  constructor
  · intro h
    refine ⟨?_, ?_, by decide⟩
    · rw [runCalc, if_pos h]
    · rw [runCalc, if_pos h]; rfl
  · intro h
    refine ⟨rankRecords (critOf p), ?_⟩
    rw [runCalc, if_neg (by omega)]

/-- Witness for C2 at the concrete 5-row table. -/
theorem claim_C2_witness :
    tbl5.index.length < 7
    ∧ runCalc tbl5 = Except.error insufficientMsg
    ∧ exitCodeOf (runCalc tbl5) = 1 :=
  ⟨by decide, ((claim_C2 tbl5).1 (by decide)).1, ((claim_C2 tbl5).1 (by decide)).2.1⟩

/-! ## Claims C6, C9, C10 -/

theorem somes_replicate (n : ℕ) (c : ℝ) :
    somes (List.replicate n (some c)) = List.replicate n c := by
  induction n with
  | zero => rfl
  | succ k ih =>
    show somes (some c :: List.replicate k (some c)) = c :: List.replicate k c
    have hcons : somes (some c :: List.replicate k (some c))
        = c :: somes (List.replicate k (some c)) := rfl
    rw [hcons, ih]

theorem volOf_replicate (n : ℕ) (c : ℝ) : volOf (List.replicate n (some c)) = 0 := by
  rw [volOf]
  have hsomes := somes_replicate n c
  cases n with
  | zero =>
    have hvar : varPopOf (List.replicate 0 (some c)) = 0 := by
      rw [varPopOf]
      simp [somes]
    rw [hvar, Real.sqrt_zero]
  | succ k =>
    have hcount : countN (List.replicate (k + 1) (some c)) = k + 1 := by
      rw [countN, hsomes, List.length_replicate]
    have hmean : meanArithOf (List.replicate (k + 1) (some c)) = c := by
      rw [meanArithOf, hsomes, hcount, List.sum_replicate, nsmul_eq_mul]
      have hk : ((k : ℝ) + 1) ≠ 0 := by positivity
      push_cast
      field_simp
    have hvar : varPopOf (List.replicate (k + 1) (some c)) = 0 := by
      rw [varPopOf, hsomes, hmean]
      simp [List.map_replicate, List.sum_replicate]
    rw [hvar, Real.sqrt_zero]

/-- C6: volatility is the population standard deviation, so constant
returns give volatility exactly 0; a zero volatility yields a missing
score, not an error; the ranking places every record with a missing
score after all records with defined scores, and orders defined-score
records by score descending with ties broken by geometric mean
descending. -/
theorem claim_C6 :
    (∀ (n : ℕ) (c : ℝ), volOf (List.replicate n (some c)) = 0)
    ∧ (∀ l : List (Option ℝ), volOf l = 0 → scoreOf l = none)
    ∧ (∀ l : List ScoreRecord, (rankRecords l).Sorted recLE)
    ∧ (∀ l : List ScoreRecord, (rankRecords l).Pairwise
        (fun a b => (a.score = none → b.score = none)
          ∧ ∀ x y, a.score = some x → b.score = some y →
              y < x ∨ (y = x ∧ b.meanGeom ≤ a.meanGeom))) := by
  refine ⟨volOf_replicate, fun l h => by rw [scoreOf, if_pos h], ?_, ?_⟩
  · intro l
    exact List.sorted_insertionSort recLE l
  · intro l
    refine List.Pairwise.imp ?_ (List.sorted_insertionSort recLE l)
    intro a b hab
    have hab2 : keyLE a.score a.meanGeom b.score b.meanGeom := hab
    constructor
    · intro ha
      cases hb : b.score with
      | none => rfl
      | some y =>
        rw [ha, hb] at hab2
        simp only [keyLE] at hab2
    · intro x y hx hy
      rw [hx, hy] at hab2
      simp only [keyLE] at hab2
      exact hab2

/-- Witness for C6: six equal returns of 0.01. -/
theorem claim_C6_witness :
    volOf (List.replicate 6 (some (0.01 : ℝ))) = 0
    ∧ scoreOf (List.replicate 6 (some (0.01 : ℝ))) = none :=
  ⟨claim_C6.1 6 0.01, claim_C6.2.1 _ (claim_C6.1 6 0.01)⟩

theorem sum_map_const (l : List α) (c : ℝ) :
    (l.map (fun _ => c)).sum = (l.length : ℝ) * c := by
  induction l with
  | nil => simp
  | cons a t ih =>
    rw [List.map_cons, List.sum_cons, ih, List.length_cons]
    push_cast
    ring

/-- C9: every selected record gets the constant weight 0.10; the
selection has `min 10 K` records, so the weights sum to `0.10` times
the selection size — strictly less than 1 whenever fewer than 10
score records exist, and exactly 1 when at least 10 exist. -/
theorem claim_C9 (l : List ScoreRecord) :
    (selectedOf l).length = min 10 l.length
    ∧ (∀ w ∈ weightsOf l, w = 0.10)
    ∧ (weightsOf l).sum = ((selectedOf l).length : ℝ) * 0.10
    ∧ (l.length < 10 → (weightsOf l).sum < 1)
    ∧ (10 ≤ l.length → (weightsOf l).sum = 1) := by
  have hrank : (rankRecords l).length = l.length :=
    (List.perm_insertionSort recLE l).length_eq
  have hsel : (selectedOf l).length = min 10 l.length := by
    rw [selectedOf, List.length_take, hrank]
  have hsum : (weightsOf l).sum = ((selectedOf l).length : ℝ) * 0.10 :=
    sum_map_const _ _
  refine ⟨hsel, ?_, hsum, ?_, ?_⟩
  · intro w hw
    rcases List.mem_map.mp hw with ⟨r, -, h⟩
    exact h.symm
  · intro h
    rw [hsum, hsel]
    have hle : min 10 l.length ≤ 9 := by omega
    have hcast : ((min 10 l.length : ℕ) : ℝ) ≤ 9 := by exact_mod_cast hle
    nlinarith
  · intro h
    rw [hsum, hsel]
    have hmin : min 10 l.length = 10 := by omega
    rw [hmin]
    norm_num

/-- Witness for C9: a three-record criteria table. -/
theorem claim_C9_witness :
    ([recBlank, recBlank, recBlank].length < 10)
    ∧ (weightsOf [recBlank, recBlank, recBlank]).sum < 1 :=
  ⟨by decide, (claim_C9 [recBlank, recBlank, recBlank]).2.2.2.1 (by decide)⟩

theorem somes_eq_nil_of_all_none {l : List (Option ℝ)} (h : ∀ x ∈ l, x = none) :
    somes l = [] := by
  induction l with
  | nil => rfl
  | cons a t ih =>
    have ha := h a (List.mem_cons_self _ _)
    subst ha
    show somes t = []
    exact ih (fun x hx => h x (List.mem_cons_of_mem _ hx))

theorem rowMeanSkipNA_none {row : List (Option ℝ)} (h : ∀ x ∈ row, x = none) :
    rowMeanSkipNA row = none := by
  have hc : countN row = 0 := by
    rw [countN, somes_eq_nil_of_all_none h]
    rfl
  rw [rowMeanSkipNA, if_pos hc]

theorem somes_eraseIdx : ∀ (l : List (Option ℝ)) (i : ℕ), i < l.length →
    l.getD i (some 0) = none → somes (l.eraseIdx i) = somes l := by
  intro l
  induction l with
  | nil => intro i hi; simp at hi
  | cons a t ih =>
    intro i hi hnone
    cases i with
    | zero =>
      have ha : a = none := hnone
      subst ha
      rfl
    | succ j =>
      have hj : j < t.length := by simpa using hi
      have hn : t.getD j (some 0) = none := hnone
      show somes (a :: t.eraseIdx j) = somes (a :: t)
      cases a with
      | none =>
        show somes (t.eraseIdx j) = somes t
        exact ih j hj hn
      | some v =>
        show v :: somes (t.eraseIdx j) = v :: somes t
        rw [ih j hj hn]

theorem map_eraseIdx (f : α → β) : ∀ (l : List α) (i : ℕ),
    (l.eraseIdx i).map f = (l.map f).eraseIdx i := by
  intro l
  induction l with
  | nil => intro i; rfl
  | cons a t ih =>
    intro i
    cases i with
    | zero => rfl
    | succ j =>
      show (a :: t.eraseIdx j).map f = f a :: (t.map f).eraseIdx j
      rw [List.map_cons, ih]

/-- Statistics that only read the non-missing entries agree on series
with the same non-missing entries. -/
theorem stats_congr {l1 l2 : List (Option ℝ)} (h : somes l1 = somes l2) :
    prodOnePlus l1 = prodOnePlus l2
    ∧ meanArithOf l1 = meanArithOf l2
    ∧ volOf l1 = volOf l2 := by
  refine ⟨?_, ?_, ?_⟩
  · simp only [prodOnePlus, h]
  · simp only [meanArithOf, countN, h]
  · simp only [volOf, varPopOf, meanArithOf, countN, h]

/-- C10: a later-window month whose selected returns are all missing
yields a missing portfolio return; it contributes a factor 1 to the
compounded product and is excluded from the mean and standard
deviation (erasing the row changes none of the three statistics),
while the reported months count stays the number of rows — 6 for a
12-row price table — not the number of non-missing portfolio
returns. -/
theorem claim_C10 (rows : List (List (Option ℝ))) (i : ℕ) (hi : i < rows.length)
    (hnone : ∀ x ∈ rows.getD i [], x = none) :
    (portReturns rows).getD i (some 0) = none
    ∧ (summaryOf rows).months = rows.length
    ∧ (summaryOf rows).cumulative = (summaryOf (rows.eraseIdx i)).cumulative
    ∧ (summaryOf rows).meanMonthly = (summaryOf (rows.eraseIdx i)).meanMonthly
    ∧ (summaryOf rows).stdMonthly = (summaryOf (rows.eraseIdx i)).stdMonthly
    ∧ (summaryOf (rows.eraseIdx i)).months = rows.length - 1
    ∧ (∀ (p : Table) (sel : List Symbol), p.index.length = 12 →
        (portfolioSummary p sel).months = 6) := by
  have hrow : rows.getD i [] = rows[i] := List.getD_eq_getElem _ _ hi
  have hpnone : (portReturns rows).getD i (some 0) = none := by
    rw [portReturns, List.getD_eq_getElem _ _ (by simpa using hi), List.getElem_map]
    refine rowMeanSkipNA_none ?_
    intro x hx
    exact hnone x (by rw [hrow]; exact hx)
  have hilen : i < (portReturns rows).length := by
    rw [portReturns, List.length_map]
    exact hi
  have hsomes : somes (portReturns (rows.eraseIdx i)) = somes (portReturns rows) := by
    rw [portReturns, map_eraseIdx]
    exact somes_eraseIdx (portReturns rows) i hilen hpnone
  obtain ⟨hprod, hmean, hvol⟩ := stats_congr hsomes
  refine ⟨hpnone, rfl, ?_, ?_, ?_, ?_, ?_⟩
  · show prodOnePlus (portReturns rows) - 1 = prodOnePlus (portReturns (rows.eraseIdx i)) - 1
    rw [hprod]
  · show meanArithOf (portReturns rows) = meanArithOf (portReturns (rows.eraseIdx i))
    rw [hmean]
  · show volOf (portReturns rows) = volOf (portReturns (rows.eraseIdx i))
    rw [hvol]
  · show (rows.eraseIdx i).length = rows.length - 1
    rw [List.length_eraseIdx]
    simp [hi]
  · intro p sel h
    show (retnLastRows p sel).length = 6
    rw [retnLastRows, List.length_map, lastWindowPairs, List.length_zip,
      List.length_tail, List.length_drop, h]
    omega

/-- Witness for C10: two later-window months, the second entirely
missing. -/
theorem claim_C10_witness :
    (1 < ([[some (0.02 : ℝ), some 0.04], [none, none]] : List (List (Option ℝ))).length)
    ∧ (portReturns [[some (0.02 : ℝ), some 0.04], [none, none]]).getD 1 (some 0) = none :=
  ⟨by decide,
    (claim_C10 [[some (0.02 : ℝ), some 0.04], [none, none]] 1 (by decide) (by simp)).1⟩

end YahooPipeline
